import Mathlib

/-!
Verification development for the mozc conversion engine and its Qt renderer.

Part 1 embeds `renderer/qt/qt_window_manager.cc` (present in the sources):
the protobuf-backed `RendererCommand` data that `QtWindowManager` inspects,
and the two pure decision functions `ShouldShowCandidateWindow` and
`ShouldShowInfolistWindow`.

Part 2 models the statistical conversion core (Lattice, Viterbi search,
segmentation, NBestGenerator, CandidateFilter, Segments resize, symbol
rewriting).  Those components are described by the specification; their
implementation files are not among the provided sources, so each such
definition carries a doc comment starting with `Modelled from the spec:`.
-/

namespace Mozc

namespace Renderer

/-- One entry of the repeated `candidate` field of
`commands::CandidateWindow` (protocol/candidate_window.pb.h), restricted to
the fields read by `qt_window_manager.cc`: `index` (int32), `id` (int32),
`value` (string) and the optional `information_id`. -/
structure Candidate where
  index : Int
  id : Int
  value : String
  informationId : Option Int
  deriving Repr, DecidableEq, Inhabited

/-- The `usages` message (`commands::InformationList`); the renderer code in
scope only reads its `information_size()`. -/
structure InformationList where
  informationSize : Nat
  deriving Repr, DecidableEq, Inhabited

/-- `commands::CandidateWindow`, restricted to the fields read by
`ShouldShowCandidateWindow` / `ShouldShowInfolistWindow`: the repeated
`candidate` field, the optional `focused_index` (uint32) and the optional
`usages`. -/
structure CandidateWindow where
  candidates : List Candidate
  focusedIndex : Option Nat
  usages : Option InformationList
  deriving Repr, DecidableEq, Inhabited

/-- `commands::Output`, restricted to the optional `candidate_window`. -/
structure Output where
  candidateWindow : Option CandidateWindow
  deriving Repr, DecidableEq, Inhabited

/-- `commands::RendererCommand`, restricted to `visible` and the optional
`output`. -/
structure RendererCommand where
  visible : Bool
  output : Option Output
  deriving Repr, DecidableEq, Inhabited

/-- Protobuf accessor semantics: `command.output()` returns the default
(empty) message when the optional field is absent. -/
def RendererCommand.getOutput (c : RendererCommand) : Output :=
  c.output.getD default

/-- Protobuf accessor for a repeated field at a possibly invalid index: the
read succeeds exactly when `0 ≤ i < size`; an out-of-range access aborts in
the C++ code (protobuf bounds check), modelled here by `none`. -/
def CandidateWindow.candidateAt (cw : CandidateWindow) (i : Int) : Option Candidate :=
  if i < 0 then none else cw.candidates.get? i.toNat

/-- `QtWindowManager::ShouldShowCandidateWindow`
(qt_window_manager.cc:137-156): false when `visible()` is unset, false when
`output()` has no `candidate_window`, false when the candidate window holds
zero candidates, true otherwise. -/
def shouldShowCandidateWindow (command : RendererCommand) : Bool :=
  if !command.visible then false
  else
    match command.getOutput.candidateWindow with
    | none => false
    | some candidateWindow =>
      if candidateWindow.candidates.length = 0 then false
      else true

/-- `QtWindowManager::ShouldShowInfolistWindow`
(qt_window_manager.cc:458-490).  The function returns `some b` when the C++
code returns `b`, and `none` when the C++ code performs the access
`candidate_window.candidate(focused_row)` with `focused_row` outside
`[0, candidate_size)` — an out-of-range read of a protobuf repeated field,
i.e. the function does not return normally.  The guard in the source is
`if (candidate_window.candidate_size() < focused_row) return false;`,
translated verbatim. -/
def shouldShowInfolistWindow (command : RendererCommand) : Option Bool :=
  match command.getOutput.candidateWindow with
  | none => some false
  | some cw =>
    if cw.candidates.length ≤ 0 then some false
    else if !(cw.usages.isSome && cw.focusedIndex.isSome) then some false
    else if (cw.usages.getD default).informationSize ≤ 0 then some false
    else
      let focusedRow : Int :=
        ((cw.focusedIndex.getD 0 : Nat) : Int) - (cw.candidates.headD default).index
      if (cw.candidates.length : Int) < focusedRow then some false
      else
        match cw.candidateAt focusedRow with
        | none => none
        | some cand => some cand.informationId.isSome

/-- A concrete `RendererCommand` that drives `ShouldShowInfolistWindow` past
every guard and into an out-of-range candidate read: one candidate (whose
`index` is 0), `focused_index = 1`, a nonempty `usages` list.  The computed
`focused_row` is `1 - 0 = 1`, the guard `candidate_size() < focused_row`
compares `1 < 1` and does not fire, and `candidate(1)` is read from a
1-element repeated field. -/
def infolistCrashCommand : RendererCommand :=
  { visible := true
    output := some
      { candidateWindow := some
          { candidates := [{ index := 0, id := 0, value := "a", informationId := some 0 }]
            focusedIndex := some 1
            usages := some { informationSize := 1 } } } }

end Renderer

namespace Converter

/-- Modelled from the spec: one entry returned by the dictionary
collaborator's lookup (§6): surface value, intrinsic word cost, left and
right boundary classes, and the span length (in characters) of the key it
covers.  The dictionary implementation is out of scope (§1). -/
structure Entry where
  value : String
  cost : Nat
  lid : Nat
  rid : Nat
  span : Nat
  deriving Repr, DecidableEq, Inhabited

/-- Modelled from the spec: a candidate morpheme Node of the Lattice (§3),
occupying the half-open range `[beginPos, beginPos + span)` of the key,
with surface value, boundary classes, word cost and the fallback
"unknown word" flag.  `nkey` is the slice of the key the node covers. -/
structure Node where
  value : String
  nkey : List Char
  beginPos : Nat
  span : Nat
  lid : Nat
  rid : Nat
  wcost : Nat
  isUnknown : Bool
  deriving Repr, DecidableEq, Inhabited

/-- The character position one past the node's range. -/
def Node.endPos (n : Node) : Nat := n.beginPos + n.span

/-- Modelled from the spec: the dictionary collaborator, as the function
`LookupPrefix(key, offset)` (§6); deterministic by assumption. -/
def Dict : Type := List Char → Nat → List Entry

/-- Modelled from the spec: the conservative unknown-word cost of a
synthesized fallback node (§4.3). -/
def unknownWordCost : Nat := 30000

/-- Modelled from the spec: the fallback Node of length 1 character
synthesized when no dictionary entry begins at position `p` (§4.3). -/
def fallbackNode (key : List Char) (p : Nat) : Node :=
  { value := String.mk ((key.drop p).take 1)
    nkey := (key.drop p).take 1
    beginPos := p
    span := 1
    lid := 0
    rid := 0
    wcost := unknownWordCost
    isUnknown := true }

/-- Modelled from the spec: the Node built from one dictionary entry at
position `p` (§4.3). -/
def entryToNode (key : List Char) (p : Nat) (e : Entry) : Node :=
  { value := e.value
    nkey := (key.drop p).take e.span
    beginPos := p
    span := e.span
    lid := e.lid
    rid := e.rid
    wcost := e.cost
    isUnknown := false }

/-- Modelled from the spec: lattice construction at one position (§4.3):
dictionary entries whose span stays inside the key become nodes; if none
remain, a single fallback node of length 1 is synthesized, so every
position of the key has at least one node beginning there.  Positions at or
past the end of the key hold no nodes (the construction loop runs over
`0 ≤ p < N` only). -/
def latticeNodesAt (dict : Dict) (key : List Char) (p : Nat) : List Node :=
  if key.length ≤ p then []
  else if ((dict key p).filter fun e =>
      decide (1 ≤ e.span ∧ p + e.span ≤ key.length)).isEmpty then
    [fallbackNode key p]
  else
    (((dict key p).filter fun e =>
      decide (1 ≤ e.span ∧ p + e.span ≤ key.length)).map (entryToNode key p))

/-- Modelled from the spec: the Connector, reduced to its transition-cost
query `TransitionCost(leftId, rightId) -> non-negative integer` (§4.1);
the compiled cost table is opaque trained data (§9). -/
def Conn : Type := Nat → Nat → Nat

/-- Modelled from the spec: the nodes of the lattice ending at offset `e`
(the implicit edges of §3): nodes beginning at some `b < e` whose range is
exactly `[b, e)`. -/
def nodesEndingAt (dict : Dict) (key : List Char) (e : Nat) : List Node :=
  (List.range e).flatMap fun b =>
    (latticeNodesAt dict key b).filter fun n => decide (n.endPos = e)

/-- First-wins minimum by accumulated cost: the stable tie-break of §4.4
(prefer the earliest-constructed node). -/
def minCostEntry : List (Nat × Node) → Option (Nat × Node)
  | [] => none
  | x :: xs => some (xs.foldl (fun best y => if y.1 < best.1 then y else best) x)

/-- Modelled from the spec: the (cost, right boundary class) of the best
path reaching offset `p`, read from the DP table `t` (entry `i` of `t`
belongs to offset `i + 1`): offset 0 is the virtual start node with cost 0
and class 0; any other offset is reachable only if its table entry is
populated. -/
def prevEntry (t : List (Option (Nat × Node))) (p : Nat) : Option (Nat × Nat) :=
  if p = 0 then some (0, 0)
  else
    match t.getD (p - 1) none with
    | none => none
    | some (c, m) => some (c, m.rid)

/-- Modelled from the spec: one step of the single forward DP pass (§4.4),
computing the BestPathEntry of offset `e1`: for every node ending at `e1`
whose begin offset is reachable, its accumulated cost is the begin offset's
cost plus `Connector.TransitionCost(prev.rightClass, node.leftClass)` plus
the node's word cost; the minimum is kept together with the chosen node as
back-pointer. -/
def vstep (conn : Conn) (dict : Dict) (key : List Char)
    (t : List (Option (Nat × Node))) (e1 : Nat) : Option (Nat × Node) :=
  minCostEntry ((nodesEndingAt dict key e1).filterMap fun n =>
    (prevEntry t n.beginPos).map fun cr => (cr.1 + conn cr.2 n.lid + n.wcost, n))

/-- Modelled from the spec: the DP table of BestPathEntry values for
offsets `1..e`, built by the forward pass in increasing offset order
(§3 BestPathEntry, §4.4). -/
def viterbiTable (conn : Conn) (dict : Dict) (key : List Char) : Nat → List (Option (Nat × Node))
  | 0 => []
  | e + 1 =>
    viterbiTable conn dict key e ++
      [vstep conn dict key (viterbiTable conn dict key e) (e + 1)]

/-- The BestPathEntry of offset `p` (none for offset 0 and for unreachable
offsets). -/
def ventry (conn : Conn) (dict : Dict) (key : List Char) (p : Nat) : Option (Nat × Node) :=
  (viterbiTable conn dict key p).getD (p - 1) none

/-- A path of lattice nodes tiling `[b, e)` exactly: each node is drawn
from the lattice at the current position and the next node starts where the
previous one ends; the empty path requires `b = e`.  This is the invariant
of §3 ("at least one path of nodes spans the full key") and §4.4. -/
def IsLatticePath (dict : Dict) (key : List Char) : Nat → Nat → List Node → Prop
  | b, e, [] => b = e
  | b, e, n :: p => n ∈ latticeNodesAt dict key b ∧ IsLatticePath dict key (b + n.span) e p

/-- Modelled from the spec: backtracking along the DP back-pointers from
offset `e` down to offset 0 to recover the single best path (§4.4).  The
`fuel` argument bounds the recursion; every step moves at least one
character to the left, so `fuel ≥ e` suffices. -/
def backtrackAux (vt : Nat → Option (Nat × Node)) : Nat → Nat → List Node
  | _, 0 => []
  | 0, _ + 1 => []
  | fuel + 1, e + 1 =>
    match vt (e + 1) with
    | none => []
    | some (_, n) => backtrackAux vt fuel n.beginPos ++ [n]

/-- Modelled from the spec: the Segmenter, reduced to its pure boundary
predicate `IsBoundary(prevRightClass, nextLeftClass)` (§4.2). -/
def Segmenter : Type := Nat → Nat → Bool

/-- Modelled from the spec: cutting the best path into segment groups at
Segmenter-mandated boundaries (§4.4): a boundary is inserted between
adjacent path nodes `n, m` exactly when `IsBoundary(n.rid, m.lid)`. -/
def cutPath (isBoundary : Segmenter) : List Node → List (List Node)
  | [] => []
  | [n] => [[n]]
  | n :: m :: rest =>
    match cutPath isBoundary (m :: rest) with
    | [] => [[n]]
    | g :: gs => if isBoundary n.rid m.lid then [n] :: g :: gs else (n :: g) :: gs

/-- The begin offset of a nonempty node group. -/
def groupBegin (g : List Node) : Nat := (g.headD default).beginPos

/-- The end offset of a nonempty node group. -/
def groupEnd (g : List Node) : Nat := (g.getLast?.getD default).endPos

/-- Modelled from the spec: exhaustive enumeration of the complete lattice
paths spanning `[b, e)` — the path set that NBestGenerator's best-first
expansion explores (§4.5).  `fuel` bounds the recursion; every step
advances the position by at least one character, so any `fuel > e - b` is
enough. -/
def pathsAux (dict : Dict) (key : List Char) : Nat → Nat → Nat → List (List Node)
  | 0, _, _ => []
  | fuel + 1, b, e =>
    if b = e then [[]]
    else
      ((latticeNodesAt dict key b).filter fun n => decide (b + n.span ≤ e)).flatMap
        fun n => (pathsAux dict key fuel (b + n.span) e).map fun p => n :: p

/-- The complete lattice paths spanning `[b, e)`. -/
def latticePaths (dict : Dict) (key : List Char) (b e : Nat) : List (List Node) :=
  pathsAux dict key (e - b + 1) b e

/-- Modelled from the spec: the accumulated path cost starting after a node
of right class `prevRid`: each step adds the Connector transition cost and
the node's word cost (§4.4, §9). -/
def pathCostFrom (conn : Conn) : Nat → List Node → Nat
  | _, [] => 0
  | prevRid, n :: p => conn prevRid n.lid + n.wcost + pathCostFrom conn n.rid p

/-- Modelled from the spec: total path cost from the virtual start node
(right class 0, cost 0). -/
def pathCost (conn : Conn) (p : List Node) : Nat := pathCostFrom conn 0 p

/-- Modelled from the spec: a Candidate (§3): covered key span, surface
value, total path cost, and the all-fallback flag consumed by
CandidateFilter (§4.6). -/
structure Candidate where
  ckey : List Char
  value : String
  cost : Nat
  allUnknown : Bool
  deriving Repr, DecidableEq, Inhabited

/-- Modelled from the spec: the raw candidate one complete path becomes
(§4.5): concatenated surface values over the covered key slice, with the
path's total cost. -/
def candidateOfPath (conn : Conn) (p : List Node) : Candidate :=
  { ckey := p.flatMap Node.nkey
    value := String.join (p.map Node.value)
    cost := pathCost conn p
    allUnknown := p.all Node.isUnknown }

/-- Modelled from the spec: stable insertion into a cost-ordered list — the
priority-queue discipline of §4.5 with the tie-break of §9 (insertion
sequence order among equal costs). -/
def insertByCost (c : Candidate) : List Candidate → List Candidate
  | [] => [c]
  | d :: ds => if d.cost ≤ c.cost then d :: insertByCost c ds else c :: d :: ds

/-- Modelled from the spec: the cost-ordered emission sequence of
NBestGenerator over a finite path set (§4.5). -/
def sortByCost : List Candidate → List Candidate
  | [] => []
  | c :: cs => insertByCost c (sortByCost cs)

/-- Modelled from the spec: NBestGenerator for one segment span (§4.5):
the complete paths of `[b, e)` become raw candidates, emitted in
non-decreasing total-cost order, at most `count` of them. -/
def nbestCandidates (conn : Conn) (dict : Dict) (key : List Char)
    (b e count : Nat) : List Candidate :=
  (sortByCost ((latticePaths dict key b e).map (candidateOfPath conn))).take count

/-- Modelled from the spec: CandidateFilter (§4.6), folded over the
emission sequence with the list of already-kept candidates: STOP once the
configured maximum count is reached, DROP an exact surface-value duplicate
of a kept candidate, DROP an all-fallback candidate once a non-fallback
candidate is kept, KEEP otherwise; kept candidates stay in emission
order. -/
def filterLoop (limit : Nat) : List Candidate → List Candidate → List Candidate
  | kept, [] => kept.reverse
  | kept, c :: rest =>
    if limit ≤ kept.length then kept.reverse
    else if kept.any fun k => k.value == c.value then filterLoop limit kept rest
    else if c.allUnknown && kept.any fun k => !k.allUnknown then filterLoop limit kept rest
    else filterLoop limit (c :: kept) rest

/-- Modelled from the spec: CandidateFilter applied to a whole emission
sequence (§4.6). -/
def candidateFilter (limit : Nat) (l : List Candidate) : List Candidate :=
  filterLoop limit [] l

/-- Modelled from the spec: a Segment (§3): its contiguous slice of the
key and its ordered candidate list (insertion order = ranking order). -/
structure Segment where
  key : List Char
  candidates : List Candidate
  deriving Repr, DecidableEq, Inhabited

/-- Modelled from the spec: the Segments output structure (§3): the
ordered sequence of Segment spanning the full key. -/
structure Segments where
  segments : List Segment
  deriving Repr, DecidableEq, Inhabited

/-- Modelled from the spec: filling one segment from its best-path node
group (§2 control flow): the segment's key is the concatenation of the
group's covered key slices, and its candidate list is NBestGenerator's
emission for the group's span passed through CandidateFilter (§4.5,
§4.6). -/
def segmentOfGroup (conn : Conn) (dict : Dict) (key : List Char)
    (limit count : Nat) (g : List Node) : Segment :=
  { key := g.flatMap Node.nkey
    candidates := candidateFilter limit
      (nbestCandidates conn dict key (groupBegin g) (groupEnd g) count) }

/-- Modelled from the spec: one full conversion (§2 control flow): build
the lattice over the key, run the single forward Viterbi pass, recover the
best path by backtracking from the final offset, cut it into segments at
Segmenter-mandated boundaries, and fill each segment's candidate list.
The empty key returns an empty Segments successfully (§7d); failure
(`none`) occurs only when the final offset has no BestPathEntry. -/
def convert (conn : Conn) (isBoundary : Segmenter) (dict : Dict)
    (limit count : Nat) (key : List Char) : Option Segments :=
  if key.length = 0 then some { segments := [] }
  else
    match ventry conn dict key key.length with
    | none => none
    | some _ =>
      some
        { segments :=
            List.map (segmentOfGroup conn dict key limit count)
              (cutPath isBoundary
                (backtrackAux (ventry conn dict key) key.length key.length)) }

/-- The single candidate of the concrete conversion of the key "a" over an
empty dictionary (pure fallback coverage); used by witnesses. -/
def candW : Candidate :=
  { ckey := ['a'], value := "a", cost := 30000, allUnknown := true }

/-- The single segment of the concrete conversion of the key "a". -/
def segW : Segment :=
  { key := ['a'], candidates := [candW] }

/-- The Segments produced by the concrete conversion of the key "a". -/
def segsW : Segments :=
  { segments := [segW] }

/-- Modelled from the spec: filling a fresh segment for a sub-span key
during `Resize` (§4.8): lattice construction and N-best generation are
rerun restricted to that sub-span only, through CandidateFilter. -/
def segmentForKey (conn : Conn) (dict : Dict) (limit count : Nat)
    (k : List Char) : Segment :=
  { key := k
    candidates := candidateFilter limit (nbestCandidates conn dict k 0 k.length count) }

/-- Modelled from the spec: `Resize(segmentIndex, newLengthInChars)` on a
Segments (§4.8): re-derives the key span of `segmentIndex` and its
successor from the full key, reruns conversion on that combined sub-span
split at the new length, and replaces exactly those two segments in place;
preceding and following segments are untouched.  Fails with no mutation
(explicit failure signal, §7c) when `newLengthInChars` would leave zero
remaining characters for a neighboring segment, or when there is no such
pair of segments. -/
def resizeSegment (conn : Conn) (dict : Dict) (limit count : Nat)
    (s : Segments) (i : Nat) (newLen : Nat) : Bool × Segments :=
  match s.segments[i]?, s.segments[i + 1]? with
  | some segI, some segJ =>
    if newLen = 0 ∨ segI.key.length + segJ.key.length ≤ newLen then (false, s)
    else
      (true,
        { segments :=
            s.segments.take i ++
              [segmentForKey conn dict limit count ((segI.key ++ segJ.key).take newLen),
                segmentForKey conn dict limit count ((segI.key ++ segJ.key).drop newLen)] ++
              s.segments.drop (i + 2) })
  | _, _ => (false, s)

end Converter

namespace Rewriter

/-- Modelled from the spec: the symbol dictionary rows exercised by
rewriter/symbol_rewriter_test.cc (the SymbolRewriter implementation and its
compiled symbol dictionary are not among the sources): the reading "ー>"
has the substitution "→", "ー" has "―", ">" has "〉"; "ーー" has no row
(TriggerRewriteEntireTest expects RewriteEntireCandidate to fail on it). -/
def symbolRows : List (List Char × List String) :=
  [("ー>".toList, ["→"]), ("ー".toList, ["―"]), (">".toList, ["〉"])]

/-- Lookup of a joined reading in the symbol dictionary. -/
def symbolLookup (k : List Char) : Option (List String) :=
  (symbolRows.find? fun r => r.1 == k).map Prod.snd

/-- A symbol substitution candidate for reading `k`. -/
def symbolCandidate (k : List Char) (v : String) : Converter.Candidate :=
  { ckey := k, value := v, cost := 0, allUnknown := false }

/-- The base candidate of a freshly re-converted merged segment, surfaced
as the raw reading. -/
def baseCandidate (k : List Char) : Converter.Candidate :=
  { ckey := k, value := String.mk k, cost := 0, allUnknown := true }

/-- Modelled from the spec: `SymbolRewriter::RewriteEntireCandidate` — the
whole-key symbol rewrite (implementation not among the sources; behavior
anchored in SymbolRewriterTest.TriggerRewriteTest and
TriggerRewriteEntireTest): join all segment keys; if the joined reading has
no symbol-dictionary row, report failure without mutation; otherwise, when
the Segments still holds more than one segment, merge them — through the
converter's segment resize over the whole span (§4.8) — into a single
segment for the joined key and insert the symbol substitutions into that
segment's candidate list; a Segments already holding a single segment gets
the substitutions appended in place. -/
def rewriteEntireCandidate (s : Converter.Segments) : Bool × Converter.Segments :=
  match symbolLookup ((s.segments.map Converter.Segment.key).flatten) with
  | none => (false, s)
  | some values =>
    match s.segments with
    | [seg] =>
      (true, Converter.Segments.mk
        [Converter.Segment.mk seg.key
          (seg.candidates ++ values.map (symbolCandidate seg.key))])
    | _ =>
      (true, Converter.Segments.mk
        [Converter.Segment.mk ((s.segments.map Converter.Segment.key).flatten)
          (baseCandidate ((s.segments.map Converter.Segment.key).flatten) ::
            values.map (symbolCandidate ((s.segments.map Converter.Segment.key).flatten)))])

/-- The candidate "test" that symbol_rewriter_test.cc's AddSegment places
in each input segment. -/
def testCandidate (k : List Char) : Converter.Candidate :=
  { ckey := k, value := "test", cost := 0, allUnknown := false }

/-- The Segments input of SymbolRewriterTest.TriggerRewriteTest and
TriggerRewriteEntireTest: a segment for the key "ー" followed by a segment
for the key ">", each holding one candidate "test". -/
def symbolTestSegments : Converter.Segments :=
  Converter.Segments.mk
    [Converter.Segment.mk "ー".toList [testCandidate "ー".toList],
      Converter.Segment.mk ">".toList [testCandidate ">".toList]]

end Rewriter

namespace Renderer

/-- C9: `ShouldShowCandidateWindow` returns true exactly when the command is
visible, its output carries a candidate window, and that window holds at
least one candidate. -/
theorem shouldShowCandidateWindow_iff (c : RendererCommand) :
    shouldShowCandidateWindow c = true ↔
      c.visible = true ∧ c.getOutput.candidateWindow.isSome = true ∧
        0 < (c.getOutput.candidateWindow.getD default).candidates.length := by
  unfold shouldShowCandidateWindow
  cases hv : c.visible
  · simp [hv]
  · cases hcw : c.getOutput.candidateWindow
    · simp [hcw]
    · rename_i cw
      by_cases hlen : cw.candidates.length = 0
      · simp [hcw, hlen]
      · simp [hcw, hlen, Nat.pos_of_ne_zero hlen]

/-- C10: the bounds guard of `ShouldShowInfolistWindow` is off by one
(`candidate_size < focused_row` instead of `focused_row < 0 ||
candidate_size <= focused_row`), so the command `infolistCrashCommand`
passes every guard and the code reads `candidate(1)` from a repeated field
of size 1: the read index is not inside `[0, candidate_size)`.  In the
embedding this is the `none` (abnormal) result. -/
theorem shouldShowInfolistWindow_oob :
    shouldShowInfolistWindow infolistCrashCommand = none := by
  decide

end Renderer

namespace Converter

theorem mem_latticeNodesAt {dict : Dict} {key : List Char} {p : Nat} {n : Node}
    (h : n ∈ latticeNodesAt dict key p) :
    n.beginPos = p ∧ 1 ≤ n.span ∧ p + n.span ≤ key.length ∧
      n.nkey = (key.drop p).take n.span := by
  unfold latticeNodesAt at h
  split at h
  · simp at h
  · rename_i hp
    split at h
    · simp at h
      subst h
      simp [fallbackNode]
      omega
    · rcases List.mem_map.mp h with ⟨e, he, rfl⟩
      have hc : 1 ≤ e.span ∧ p + e.span ≤ key.length :=
        of_decide_eq_true (List.mem_filter.mp he).2
      exact ⟨rfl, hc.1, hc.2, rfl⟩

theorem latticeNodesAt_ne_nil {dict : Dict} {key : List Char} {p : Nat}
    (hp : p < key.length) : latticeNodesAt dict key p ≠ [] := by
  unfold latticeNodesAt
  rw [if_neg (by omega)]
  split
  · simp
  · rename_i hes
    simp only [ne_eq, List.map_eq_nil_iff]
    intro hnil
    rw [hnil] at hes
    simp at hes

theorem viterbiTable_length (conn : Conn) (dict : Dict) (key : List Char) :
    ∀ e, (viterbiTable conn dict key e).length = e
  | 0 => rfl
  | e + 1 => by
    simp [viterbiTable, viterbiTable_length conn dict key e]

theorem viterbiTable_getD (conn : Conn) (dict : Dict) (key : List Char) {p : Nat} :
    ∀ {e : Nat}, p < e →
      (viterbiTable conn dict key e).getD p none =
        (viterbiTable conn dict key (p + 1)).getD p none := by
  intro e
  induction e with
  | zero => omega
  | succ e ih =>
    intro hpe
    rcases Nat.lt_or_ge p e with h | h
    · rw [viterbiTable, List.getD_append _ _ _ p (by rw [viterbiTable_length]; omega)]
      exact ih h
    · have : p = e := by omega
      subst this
      rfl

theorem ventry_succ (conn : Conn) (dict : Dict) (key : List Char) (e : Nat) :
    ventry conn dict key (e + 1) =
      vstep conn dict key (viterbiTable conn dict key e) (e + 1) := by
  unfold ventry
  rw [viterbiTable]
  rw [List.getD_eq_getElem?_getD]
  rw [List.getElem?_append_right (by rw [viterbiTable_length]; omega)]
  simp [viterbiTable_length]

theorem minCostEntry_mem {l : List (Nat × Node)} {x : Nat × Node}
    (h : minCostEntry l = some x) : x ∈ l := by
  cases l with
  | nil => simp [minCostEntry] at h
  | cons a as =>
    simp only [minCostEntry, Option.some.injEq] at h
    subst h
    have main : ∀ (bs : List (Nat × Node)) (a : Nat × Node),
        bs.foldl (fun best y => if y.1 < best.1 then y else best) a ∈ a :: bs := by
      intro bs
      induction bs with
      | nil => intro a; simp
      | cons b bs ih =>
        intro a
        simp only [List.foldl_cons]
        by_cases hba : b.1 < a.1
        · simp only [if_pos hba]
          have := ih b
          simp [List.mem_cons] at this ⊢
          tauto
        · simp only [if_neg hba]
          have := ih a
          simp [List.mem_cons] at this ⊢
          tauto
    exact main as a

theorem mem_nodesEndingAt {dict : Dict} {key : List Char} {e : Nat} {n : Node}
    (h : n ∈ nodesEndingAt dict key e) :
    n ∈ latticeNodesAt dict key n.beginPos ∧ n.endPos = e := by
  rcases List.mem_flatMap.mp h with ⟨b, _, hn⟩
  have h2 := List.mem_filter.mp hn
  have hend : n.endPos = e := of_decide_eq_true h2.2
  have hbp := (mem_latticeNodesAt h2.1).1
  refine ⟨?_, hend⟩
  rw [hbp]
  exact h2.1

/-- Structural facts about a populated BestPathEntry: the chosen node is a
lattice node, it ends exactly at the entry's offset, it begins strictly
earlier, and its begin offset is itself reachable. -/
theorem ventry_spec (conn : Conn) (dict : Dict) (key : List Char) :
    ∀ e c n, ventry conn dict key e = some (c, n) →
      n ∈ latticeNodesAt dict key n.beginPos ∧ n.endPos = e ∧ n.beginPos < e ∧
        (n.beginPos = 0 ∨ ventry conn dict key n.beginPos ≠ none) := by
  intro e c n h
  cases e with
  | zero => simp [ventry, viterbiTable] at h
  | succ e =>
    rw [ventry_succ] at h
    have hmem := minCostEntry_mem h
    rcases List.mem_filterMap.mp hmem with ⟨n', hn', hf⟩
    rcases Option.map_eq_some'.mp hf with ⟨cr, hprev, hcn⟩
    have hnn : n' = n := congrArg Prod.snd hcn
    subst hnn
    have hlat := mem_nodesEndingAt hn'
    have hfacts := mem_latticeNodesAt hlat.1
    have hblt : n'.beginPos < e + 1 := by
      have := hlat.2
      unfold Node.endPos at this
      omega
    refine ⟨hlat.1, hlat.2, hblt, ?_⟩
    unfold prevEntry at hprev
    split at hprev
    · left; assumption
    · rename_i hb0
      right
      rw [ventry]
      have hble : n'.beginPos ≤ e := by omega
      have hb1 : 1 ≤ n'.beginPos := by omega
      have hstab := @viterbiTable_getD conn dict key (n'.beginPos - 1) e (by omega)
      have : n'.beginPos - 1 + 1 = n'.beginPos := by omega
      rw [this] at hstab
      rw [← hstab]
      intro hnone
      rw [hnone] at hprev
      simp at hprev

theorem IsLatticePath.le {dict : Dict} {key : List Char} :
    ∀ {p : List Node} {b e : Nat}, IsLatticePath dict key b e p → b ≤ e := by
  intro p
  induction p with
  | nil => intro b e h; exact Nat.le_of_eq h
  | cons n p ih =>
    intro b e h
    have := ih h.2
    omega

theorem IsLatticePath.append {dict : Dict} {key : List Char} :
    ∀ {p q : List Node} {b m e : Nat}, IsLatticePath dict key b m p →
      IsLatticePath dict key m e q → IsLatticePath dict key b e (p ++ q) := by
  intro p
  induction p with
  | nil =>
    intro q b m e hp hq
    have : b = m := hp
    subst this
    exact hq
  | cons n p ih =>
    intro q b m e hp hq
    exact ⟨hp.1, ih hp.2 hq⟩

theorem IsLatticePath.split {dict : Dict} {key : List Char} :
    ∀ {p q : List Node} {b e : Nat}, IsLatticePath dict key b e (p ++ q) →
      ∃ m, IsLatticePath dict key b m p ∧ IsLatticePath dict key m e q := by
  intro p
  induction p with
  | nil =>
    intro q b e h
    exact ⟨b, rfl, h⟩
  | cons n p ih =>
    intro q b e h
    rcases ih h.2 with ⟨m, hp, hq⟩
    exact ⟨m, ⟨h.1, hp⟩, hq⟩

theorem IsLatticePath.head_beginPos {dict : Dict} {key : List Char}
    {b e : Nat} {n : Node} {p : List Node}
    (h : IsLatticePath dict key b e (n :: p)) : n.beginPos = b :=
  (mem_latticeNodesAt h.1).1

theorem IsLatticePath.getLast_endPos {dict : Dict} {key : List Char} :
    ∀ {p : List Node} {b e : Nat} {n : Node}, IsLatticePath dict key b e p →
      p.getLast? = some n → n.endPos = e := by
  intro p
  induction p with
  | nil => intro b e n _ h; simp at h
  | cons m p ih =>
    intro b e n hp hl
    cases hq : p with
    | nil =>
      subst hq
      simp at hl
      cases hl
      have hb : m.beginPos = b := (mem_latticeNodesAt hp.1).1
      have h2 : b + m.span = e := hp.2
      unfold Node.endPos
      omega
    | cons m' p' =>
      subst hq
      rw [List.getLast?_cons_cons] at hl
      exact ih hp.2 hl

theorem IsLatticePath.flatMap_nkey {dict : Dict} {key : List Char} :
    ∀ {p : List Node} {b e : Nat}, IsLatticePath dict key b e p →
      p.flatMap Node.nkey = (key.drop b).take (e - b) := by
  intro p
  induction p with
  | nil =>
    intro b e h
    have : b = e := h
    subst this
    simp
  | cons n p ih =>
    intro b e h
    have hfacts := mem_latticeNodesAt h.1
    have htail := ih h.2
    have hle : b + n.span ≤ e := h.2.le
    simp only [List.flatMap_cons]
    rw [hfacts.2.2.2, htail]
    have harith : e - b = n.span + (e - (b + n.span)) := by omega
    rw [harith, List.take_add, List.drop_drop]

theorem backtrackAux_isLatticePath (conn : Conn) (dict : Dict) (key : List Char) :
    ∀ fuel e, e ≤ fuel → (e = 0 ∨ ventry conn dict key e ≠ none) →
      IsLatticePath dict key 0 e (backtrackAux (ventry conn dict key) fuel e) := by
  intro fuel
  induction fuel with
  | zero =>
    intro e he _
    have : e = 0 := by omega
    subst this
    exact rfl
  | succ fuel ih =>
    intro e he hr
    cases e with
    | zero => exact rfl
    | succ e =>
      rcases hr with h0 | hne
      · omega
      · cases hv : ventry conn dict key (e + 1) with
        | none => exact absurd hv hne
        | some cn =>
          obtain ⟨c, n⟩ := cn
          have hspec := ventry_spec conn dict key (e + 1) c n hv
          have hstep : backtrackAux (ventry conn dict key) (fuel + 1) (e + 1) =
              backtrackAux (ventry conn dict key) fuel n.beginPos ++ [n] := by
            simp [backtrackAux, hv]
          rw [hstep]
          have hbfuel : n.beginPos ≤ fuel := by
            have := hspec.2.2.1
            omega
          have hpre := ih n.beginPos hbfuel hspec.2.2.2
          refine hpre.append ?_
          refine ⟨hspec.1, ?_⟩
          show n.beginPos + n.span = e + 1
          have := hspec.2.1
          unfold Node.endPos at this
          omega

theorem cutPath_flatten (isBoundary : Segmenter) :
    ∀ l : List Node, (cutPath isBoundary l).flatten = l := by
  intro l
  induction l with
  | nil => rfl
  | cons n l ih =>
    cases l with
    | nil => rfl
    | cons m rest =>
      rw [cutPath]
      cases hcut : cutPath isBoundary (m :: rest) with
      | nil =>
        rw [hcut] at ih
        simp at ih
      | cons g gs =>
        rw [hcut] at ih
        by_cases hb : isBoundary n.rid m.lid
        · simp only [if_pos hb, List.flatten_cons] at ih ⊢
          simp [ih]
        · simp only [if_neg hb, List.flatten_cons] at ih ⊢
          simp [ih]

theorem cutPath_ne_nil (isBoundary : Segmenter) :
    ∀ l : List Node, ∀ g ∈ cutPath isBoundary l, g ≠ [] := by
  intro l
  induction l with
  | nil => intro g hg; simp [cutPath] at hg
  | cons n l ih =>
    cases l with
    | nil =>
      intro g hg
      simp [cutPath] at hg
      simp [hg]
    | cons m rest =>
      intro g hg
      rw [cutPath] at hg
      cases hcut : cutPath isBoundary (m :: rest) with
      | nil =>
        rw [hcut] at hg
        simp at hg
        simp [hg]
      | cons g' gs =>
        rw [hcut] at hg
        have ih' := ih
        rw [hcut] at ih'
        dsimp only at hg
        by_cases hb : isBoundary n.rid m.lid
        · rw [if_pos hb] at hg
          rcases List.mem_cons.mp hg with h | h
          · simp [h]
          · exact ih' g h
        · rw [if_neg hb] at hg
          rcases List.mem_cons.mp hg with h | h
          · simp [h]
          · exact ih' g (List.mem_cons_of_mem g' h)

theorem groups_isLatticePath {dict : Dict} {key : List Char} :
    ∀ (gs : List (List Node)) (b e : Nat), IsLatticePath dict key b e gs.flatten →
      (∀ g ∈ gs, g ≠ []) → ∀ g ∈ gs, IsLatticePath dict key (groupBegin g) (groupEnd g) g := by
  intro gs
  induction gs with
  | nil => intro b e _ _ g hg; simp at hg
  | cons g0 gs ih =>
    intro b e hpath hne g hg
    rw [List.flatten_cons] at hpath
    rcases hpath.split with ⟨m, hg0, hrest⟩
    rcases List.mem_cons.mp hg with rfl | hmem
    · have hgne : g ≠ [] := hne g (List.mem_cons_self g gs)
      obtain ⟨n0, p0, rfl⟩ := List.exists_cons_of_ne_nil hgne
      have hbeg : groupBegin (n0 :: p0) = b := hg0.head_beginPos
      obtain ⟨last, hlast⟩ := Option.isSome_iff_exists.mp
        (List.getLast?_isSome.mpr (by simp : (n0 :: p0) ≠ []))
      have hendv : last.endPos = m := hg0.getLast_endPos hlast
      have hend : groupEnd (n0 :: p0) = m := by
        unfold groupEnd
        rw [hlast]
        exact hendv
      rw [hbeg, hend]
      exact hg0
    · exact ih m e hrest (fun g' hg' => hne g' (List.mem_cons_of_mem g0 hg')) g hmem

theorem mem_pathsAux {dict : Dict} {key : List Char} :
    ∀ {p : List Node} {b e fuel : Nat}, IsLatticePath dict key b e p →
      e - b < fuel → p ∈ pathsAux dict key fuel b e := by
  intro p
  induction p with
  | nil =>
    intro b e fuel h hf
    have hbe : b = e := h
    subst hbe
    cases fuel with
    | zero => omega
    | succ f => simp [pathsAux]
  | cons n p ih =>
    intro b e fuel h hf
    have hfacts := mem_latticeNodesAt h.1
    have hle : b + n.span ≤ e := h.2.le
    have hbe : b ≠ e := by omega
    cases fuel with
    | zero => omega
    | succ f =>
      rw [pathsAux, if_neg hbe]
      apply List.mem_flatMap.mpr
      refine ⟨n, List.mem_filter.mpr ⟨h.1, decide_eq_true hle⟩, ?_⟩
      exact List.mem_map.mpr ⟨p, ih h.2 (by omega), rfl⟩

theorem latticePaths_ne_nil {dict : Dict} {key : List Char} {b e : Nat}
    {p : List Node} (h : IsLatticePath dict key b e p) :
    latticePaths dict key b e ≠ [] := by
  intro hnil
  have := @mem_pathsAux dict key p b e (e - b + 1) h (by omega)
  rw [latticePaths] at hnil
  rw [hnil] at this
  simp at this

theorem mem_insertByCost {c x : Candidate} :
    ∀ {l : List Candidate}, x ∈ insertByCost c l ↔ x = c ∨ x ∈ l := by
  intro l
  induction l with
  | nil => simp [insertByCost]
  | cons d ds ih =>
    rw [insertByCost]
    by_cases h : d.cost ≤ c.cost
    · rw [if_pos h]
      simp only [List.mem_cons, ih]
      tauto
    · rw [if_neg h]
      simp [List.mem_cons]

theorem insertByCost_pairwise {c : Candidate} :
    ∀ {l : List Candidate}, List.Pairwise (fun a b => a.cost ≤ b.cost) l →
      List.Pairwise (fun a b => a.cost ≤ b.cost) (insertByCost c l) := by
  intro l
  induction l with
  | nil => intro _; simp [insertByCost]
  | cons d ds ih =>
    intro h
    rw [insertByCost]
    by_cases hc : d.cost ≤ c.cost
    · rw [if_pos hc]
      refine List.Pairwise.cons ?_ (ih h.tail)
      intro x hx
      rcases mem_insertByCost.mp hx with rfl | hx
      · exact hc
      · exact List.rel_of_pairwise_cons h hx
    · rw [if_neg hc]
      refine List.Pairwise.cons ?_ h
      intro x hx
      rcases List.mem_cons.mp hx with rfl | hx
      · omega
      · have := List.rel_of_pairwise_cons h hx
        omega

theorem sortByCost_pairwise :
    ∀ l : List Candidate, List.Pairwise (fun a b => a.cost ≤ b.cost) (sortByCost l)
  | [] => List.Pairwise.nil
  | _ :: cs => insertByCost_pairwise (sortByCost_pairwise cs)

theorem insertByCost_ne_nil {c : Candidate} {l : List Candidate} :
    insertByCost c l ≠ [] := by
  cases l with
  | nil => simp [insertByCost]
  | cons d ds =>
    rw [insertByCost]
    by_cases h : d.cost ≤ c.cost
    · rw [if_pos h]; simp
    · rw [if_neg h]; simp

theorem sortByCost_ne_nil {l : List Candidate} (h : l ≠ []) :
    sortByCost l ≠ [] := by
  cases l with
  | nil => exact absurd rfl h
  | cons c cs => exact insertByCost_ne_nil

theorem filterLoop_values_nodup (limit : Nat) :
    ∀ (l kept : List Candidate), (kept.map Candidate.value).Nodup →
      ((filterLoop limit kept l).map Candidate.value).Nodup := by
  intro l
  induction l with
  | nil =>
    intro kept h
    rw [filterLoop]
    rw [List.map_reverse]
    exact List.nodup_reverse.mpr h
  | cons c rest ih =>
    intro kept h
    rw [filterLoop]
    by_cases h1 : limit ≤ kept.length
    · rw [if_pos h1, List.map_reverse]
      exact List.nodup_reverse.mpr h
    · rw [if_neg h1]
      by_cases h2 : kept.any fun k => k.value == c.value
      · rw [if_pos h2]
        exact ih kept h
      · rw [if_neg h2]
        by_cases h3 : c.allUnknown && kept.any fun k => !k.allUnknown
        · rw [if_pos h3]
          exact ih kept h
        · rw [if_neg h3]
          apply ih
          rw [List.map_cons]
          refine List.Nodup.cons ?_ h
          intro hmem
          apply h2
          rcases List.mem_map.mp hmem with ⟨k, hk, hkv⟩
          exact List.any_eq_true.mpr ⟨k, hk, by simp [hkv]⟩

theorem candidateFilter_ne_nil {limit : Nat} {l : List Candidate}
    (hl : l ≠ []) (hlim : 1 ≤ limit) : candidateFilter limit l ≠ [] := by
  obtain ⟨c, rest, rfl⟩ := List.exists_cons_of_ne_nil hl
  rw [candidateFilter, filterLoop]
  rw [if_neg (by simp; omega), if_neg (by simp), if_neg (by simp)]
  have main : ∀ (l' kept : List Candidate), kept ≠ [] →
      filterLoop limit kept l' ≠ [] := by
    intro l'
    induction l' with
    | nil =>
      intro kept hk
      rw [filterLoop]
      simp [hk]
    | cons d rest' ih =>
      intro kept hk
      rw [filterLoop]
      by_cases h1 : limit ≤ kept.length
      · rw [if_pos h1]; simp [hk]
      · rw [if_neg h1]
        by_cases h2 : kept.any fun k => k.value == d.value
        · rw [if_pos h2]; exact ih kept hk
        · rw [if_neg h2]
          by_cases h3 : d.allUnknown && kept.any fun k => !k.allUnknown
          · rw [if_pos h3]; exact ih kept hk
          · rw [if_neg h3]; exact ih (d :: kept) (by simp)
  exact main rest [c] (by simp)

theorem flatten_map_flatMap {α β : Type} (f : α → List β) :
    ∀ gs : List (List α), (gs.map fun g => g.flatMap f).flatten = gs.flatten.flatMap f := by
  intro gs
  induction gs with
  | nil => rfl
  | cons g gs ih => simp [List.flatten_cons, ih]

theorem take_ne_nil_of_ne_nil {α : Type} {l : List α} {k : Nat}
    (hl : l ≠ []) (hk : 1 ≤ k) : l.take k ≠ [] := by
  cases l with
  | nil => exact absurd rfl hl
  | cons a l =>
    cases k with
    | zero => omega
    | succ k => simp

/-- C1: whenever a conversion returns successfully, the resulting Segments
is consistent: the concatenation of the segment keys equals the original
key with no gaps or overlaps, and every segment has at least one candidate
(the configured candidate cap and requested n-best count are at least 1,
as in the engine). -/
theorem convert_consistent (conn : Conn) (isBoundary : Segmenter) (dict : Dict)
    (limit count : Nat) (key : List Char) (segs : Segments)
    (hlim : 1 ≤ limit) (hcnt : 1 ≤ count)
    (h : convert conn isBoundary dict limit count key = some segs) :
    (segs.segments.map Segment.key).flatten = key ∧
      ∀ seg ∈ segs.segments, seg.candidates ≠ [] := by
  unfold convert at h
  by_cases hN : key.length = 0
  · rw [if_pos hN] at h
    have hkey : key = [] := List.length_eq_zero.mp hN
    obtain rfl := (Option.some.inj h).symm
    subst hkey
    exact ⟨rfl, by intro seg hseg; simp at hseg⟩
  · rw [if_neg hN] at h
    cases hv : ventry conn dict key key.length with
    | none =>
      rw [hv] at h
      simp at h
    | some cn =>
      rw [hv] at h
      obtain rfl := (Option.some.inj h).symm
      have hpath : IsLatticePath dict key 0 key.length
          (backtrackAux (ventry conn dict key) key.length key.length) :=
        backtrackAux_isLatticePath conn dict key key.length key.length le_rfl
          (Or.inr (by rw [hv]; exact fun hc => Option.noConfusion hc))
      have hgroups := cutPath_flatten isBoundary
        (backtrackAux (ventry conn dict key) key.length key.length)
      constructor
      · rw [List.map_map]
        have hcomp : Segment.key ∘ segmentOfGroup conn dict key limit count =
            fun g => g.flatMap Node.nkey := rfl
        rw [hcomp, flatten_map_flatMap, hgroups, hpath.flatMap_nkey]
        simp
      · intro seg hseg
        rcases List.mem_map.mp hseg with ⟨g, hg, rfl⟩
        have hgpath : IsLatticePath dict key (groupBegin g) (groupEnd g) g := by
          apply groups_isLatticePath
            (cutPath isBoundary (backtrackAux (ventry conn dict key) key.length key.length))
            0 key.length
          · rw [hgroups]; exact hpath
          · exact cutPath_ne_nil isBoundary _
          · exact hg
        show (segmentOfGroup conn dict key limit count g).candidates ≠ []
        unfold segmentOfGroup
        apply candidateFilter_ne_nil _ hlim
        unfold nbestCandidates
        apply take_ne_nil_of_ne_nil _ hcnt
        apply sortByCost_ne_nil
        simp only [ne_eq, List.map_eq_nil_iff]
        exact latticePaths_ne_nil hgpath

/-- C1 witness: a concrete successful conversion of the key "a" over an
empty dictionary; the segment keys concatenate to the key. -/
theorem convert_consistent_witness :
    (List.map Segment.key segsW.segments).flatten = ['a'] :=
  (convert_consistent (fun _ _ => 0) (fun _ _ => false) (fun _ _ => []) 10 10 ['a']
    segsW (by decide) (by decide) (by decide)).1

/-- C5: NBestGenerator's emission for a fixed segment span is
non-decreasing in total path cost, and consuming it twice from the same
lattice state yields exactly the same sequence. -/
theorem nbest_sorted_and_deterministic (conn : Conn) (dict : Dict) (key : List Char)
    (b e count : Nat) :
    List.Pairwise (fun c1 c2 => c1.cost ≤ c2.cost)
        (nbestCandidates conn dict key b e count) ∧
      nbestCandidates conn dict key b e count = nbestCandidates conn dict key b e count :=
  ⟨List.Pairwise.sublist (List.take_sublist _ _) (sortByCost_pairwise _), rfl⟩

/-- C6: running the full conversion twice on an unchanged key with
unchanged Connector/Segmenter tables and an unchanged dictionary produces
identical Segments. -/
theorem convert_deterministic (conn : Conn) (isBoundary : Segmenter) (dict : Dict)
    (limit count : Nat) (key : List Char) (r1 r2 : Option Segments)
    (h1 : r1 = convert conn isBoundary dict limit count key)
    (h2 : r2 = convert conn isBoundary dict limit count key) : r1 = r2 := by
  rw [h1, h2]

/-- C6 witness: two concrete runs on the key "a" agree. -/
theorem convert_deterministic_witness :
    convert (fun _ _ => 0) (fun _ _ => false) (fun _ _ => []) 10 10 ['a'] =
      convert (fun _ _ => 0) (fun _ _ => false) (fun _ _ => []) 10 10 ['a'] :=
  convert_deterministic (fun _ _ => 0) (fun _ _ => false) (fun _ _ => []) 10 10 ['a']
    _ _ rfl rfl

/-- C7: in every segment produced by a successful conversion, no two
candidates share the same surface value (CandidateFilter deduplication). -/
theorem convert_values_nodup (conn : Conn) (isBoundary : Segmenter) (dict : Dict)
    (limit count : Nat) (key : List Char) (segs : Segments) (seg : Segment)
    (h : convert conn isBoundary dict limit count key = some segs)
    (hseg : seg ∈ segs.segments) :
    (seg.candidates.map Candidate.value).Nodup := by
  unfold convert at h
  by_cases hN : key.length = 0
  · rw [if_pos hN] at h
    obtain rfl := (Option.some.inj h).symm
    simp at hseg
  · rw [if_neg hN] at h
    cases hv : ventry conn dict key key.length with
    | none =>
      rw [hv] at h
      simp at h
    | some cn =>
      rw [hv] at h
      obtain rfl := (Option.some.inj h).symm
      rcases List.mem_map.mp hseg with ⟨g, _, rfl⟩
      exact filterLoop_values_nodup limit
        (nbestCandidates conn dict key (groupBegin g) (groupEnd g) count) [] (by simp)

/-- C7 witness: the one segment of the concrete conversion of "a" has
pairwise-distinct candidate surface values. -/
theorem convert_values_nodup_witness :
    (segW.candidates.map Candidate.value).Nodup :=
  convert_values_nodup (fun _ _ => 0) (fun _ _ => false) (fun _ _ => []) 10 10 ['a']
    segsW segW (by decide) (by decide)

/-- C8: the empty key converts successfully to a Segments with zero
segments; it is not an error. -/
theorem convert_empty_key (conn : Conn) (isBoundary : Segmenter) (dict : Dict)
    (limit count : Nat) :
    convert conn isBoundary dict limit count [] = some { segments := [] } := rfl

theorem getElem?_splice {α : Type} (l : List α) (i : Nat) (a b : α) (j : Nat)
    (hlen : i + 1 < l.length) (hj1 : j ≠ i) (hj2 : j ≠ i + 1) :
    (l.take i ++ [a, b] ++ l.drop (i + 2))[j]? = l[j]? := by
  rcases Nat.lt_or_ge j i with hji | hji
  · rw [List.append_assoc, List.getElem?_append_left
      (by rw [List.length_take]; omega)]
    rw [List.getElem?_take, if_pos hji]
  · have hj : i + 2 ≤ j := by omega
    have hti : (l.take i).length = i := by rw [List.length_take]; omega
    rw [List.append_assoc, List.getElem?_append_right (by rw [hti]; omega), hti]
    have h2len : ([a, b] : List α).length = 2 := rfl
    rw [List.getElem?_append_right (by rw [h2len]; omega), h2len]
    rw [List.getElem?_drop]
    congr 1
    omega

/-- C3: Resize fails as a no-op — reporting failure and leaving the
Segments completely unchanged — whenever the requested new length would
leave zero remaining characters for a neighboring segment (the segment
itself at length 0, or its successor when the new length consumes the
combined span). -/
theorem resizeSegment_fail_noop (conn : Conn) (dict : Dict) (limit count : Nat)
    (s : Segments) (i newLen : Nat) (segI segJ : Segment)
    (hI : s.segments[i]? = some segI) (hJ : s.segments[i + 1]? = some segJ)
    (hbad : newLen = 0 ∨ segI.key.length + segJ.key.length ≤ newLen) :
    resizeSegment conn dict limit count s i newLen = (false, s) := by
  unfold resizeSegment
  rw [hI, hJ]
  exact if_pos hbad

/-- C3 witness: resizing segment 0 of the two-segment Segments for "ab"/"c"
to 3 characters would leave the successor empty; the call fails and the
Segments is returned unchanged. -/
theorem resizeSegment_fail_noop_witness :
    resizeSegment (fun _ _ => 0) (fun _ _ => []) 10 10
        (Segments.mk [Segment.mk ['a', 'b'] [], Segment.mk ['c'] []]) 0 3 =
      (false, Segments.mk [Segment.mk ['a', 'b'] [], Segment.mk ['c'] []]) :=
  resizeSegment_fail_noop (fun _ _ => 0) (fun _ _ => []) 10 10
    (Segments.mk [Segment.mk ['a', 'b'] [], Segment.mk ['c'] []]) 0 3
    (Segment.mk ['a', 'b'] []) (Segment.mk ['c'] [])
    (by decide) (by decide) (by decide)

/-- C4: a successful Resize of segment `i` does not alter any segment `j`
with `j ≠ i` and `j ≠ i + 1`: key, candidate list and boundary of every
other segment are untouched (only `i` and its successor are replaced). -/
theorem resizeSegment_frame (conn : Conn) (dict : Dict) (limit count : Nat)
    (s : Segments) (i newLen j : Nat)
    (hsucc : (resizeSegment conn dict limit count s i newLen).1 = true)
    (hj1 : j ≠ i) (hj2 : j ≠ i + 1) :
    (resizeSegment conn dict limit count s i newLen).2.segments[j]? = s.segments[j]? := by
  unfold resizeSegment at hsucc ⊢
  cases hI : s.segments[i]? with
  | none => rw [hI] at hsucc
  | some segI =>
    cases hJ : s.segments[i + 1]? with
    | none => rw [hI, hJ] at hsucc
    | some segJ =>
      rw [hI, hJ] at hsucc
      dsimp only at hsucc ⊢
      by_cases hcond : newLen = 0 ∨ segI.key.length + segJ.key.length ≤ newLen
      · rw [if_pos hcond] at hsucc
        simp at hsucc
      · rw [if_neg hcond]
        have hlen : i + 1 < s.segments.length :=
          List.getElem?_eq_some_iff.mp hJ |>.1
        exact getElem?_splice s.segments i _ _ j hlen hj1 hj2

/-- C4 witness: a successful concrete resize (segment 0 of
["ab", "c", "d"] to length 1) leaves segment 2 untouched. -/
theorem resizeSegment_frame_witness :
    (resizeSegment (fun _ _ => 0) (fun _ _ => []) 10 10
        (Segments.mk [Segment.mk ['a', 'b'] [], Segment.mk ['c'] [],
          Segment.mk ['d'] []]) 0 1).2.segments[2]? =
      (Segments.mk [Segment.mk ['a', 'b'] [], Segment.mk ['c'] [],
        Segment.mk ['d'] []]).segments[2]? :=
  resizeSegment_frame (fun _ _ => 0) (fun _ _ => []) 10 10
    (Segments.mk [Segment.mk ['a', 'b'] [], Segment.mk ['c'] [],
      Segment.mk ['d'] []]) 0 1 2
    (by decide) (by decide) (by decide)

end Converter

namespace Rewriter

/-- C2 counterexample: after the whole-key symbol rewrite of the segments
["ー", ">"], the second segment's first slot does not hold "→": the two
segments have been merged into a single segment, so no second segment
exists at all (symbol_rewriter_test.cc asserts the candidate in segment 0:
HasCandidate(segments, 0, "→")). -/
theorem rewriteEntire_second_segment_first_slot :
    (((rewriteEntireCandidate symbolTestSegments).2.segments[1]?.bind
        fun seg => seg.candidates[0]?).map Converter.Candidate.value) ≠ some "→" := by
  decide

/-- C2 amended: the rewrite succeeds, the two keys merge into a single
segment for the joined key "ー>", and the symbol substitution "→" appears
among that first segment's candidate values. -/
theorem rewriteEntire_merged_has_arrow :
    (rewriteEntireCandidate symbolTestSegments).1 = true ∧
      (rewriteEntireCandidate symbolTestSegments).2.segments.length = 1 ∧
      ((rewriteEntireCandidate symbolTestSegments).2.segments[0]?.map
          fun seg => (seg.candidates.map Converter.Candidate.value).contains "→") =
        some true := by
  decide

end Rewriter

end Mozc
